import Mathlib

/-!
Verification of the NewAnalyzer portfolio/analysis services.

This file gives a shallow embedding, over exact rationals, of the numerical
core of the repository:

* `backend/services/portfolio_service.py`:
  `efficient_frontier_analytic`, `sample_feasible_portfolios`,
  `_tangency_weights`, `_min_variance_weights`, `_select_composition_weights`,
  `estimate_mu_sigma`;
* `backend/services/analysis_service.py`:
  `compute_returns`, `_find_correlated_groups`,
  `_create_representative_asset`, `consolidate_correlated_assets`.

Modelling conventions:

* Floating-point numbers are modelled by `ℚ` (exact arithmetic); a value that
  can be NaN in the source (a pandas correlation entry, a mean over zero
  rows) is modelled by `Option ℚ` with `none` standing for NaN.
* Calls into numpy/pandas library code (not part of this repository) are
  modelled as explicit inputs: `np.linalg.inv` becomes an `invSigma` matrix
  argument, `np.sqrt` a `sqrtFn : ℚ → ℚ` argument, `np.log` a
  `logFn : ℚ → ℚ` argument, the `np.random` generator an abstract
  state-passing record `Rng`, and `pandas.DataFrame.corr` a correlation
  matrix argument.
* The unbounded `while` loop of the short-allowed rejection sampler is
  embedded with an explicit iteration budget (`fuel`); `none` means the
  loop has not produced a result within that many iterations.
-/

/-! ## Analytic frontier solver (portfolio_service.efficient_frontier_analytic) -/

/-- The single error raised by `efficient_frontier_analytic`
(`ValueError` at line 134; the spec names it `DegenerateFrontierError`). -/
inductive FrontierError where
  | degenerateFrontier
deriving DecidableEq

/-- The all-ones vector `ones = np.ones(len(mu_vec))` (line 127). -/
def onesV (n : ℕ) : Fin n → ℚ := fun _ => 1

/-- Coefficient `A = ones @ inv_Sigma @ ones` (line 129). -/
def frontA {n : ℕ} (inv : Matrix (Fin n) (Fin n) ℚ) : ℚ :=
  Matrix.dotProduct (onesV n) (inv.mulVec (onesV n))

/-- Coefficient `B = ones @ inv_Sigma @ mu_vec` (line 130). -/
def frontB {n : ℕ} (inv : Matrix (Fin n) (Fin n) ℚ) (mu : Fin n → ℚ) : ℚ :=
  Matrix.dotProduct (onesV n) (inv.mulVec mu)

/-- Coefficient `C = mu_vec @ inv_Sigma @ mu_vec` (line 131). -/
def frontC {n : ℕ} (inv : Matrix (Fin n) (Fin n) ℚ) (mu : Fin n → ℚ) : ℚ :=
  Matrix.dotProduct mu (inv.mulVec mu)

/-- Discriminant `D = A * C - B ** 2` (line 132). -/
def frontD {n : ℕ} (inv : Matrix (Fin n) (Fin n) ℚ) (mu : Fin n → ℚ) : ℚ :=
  frontA inv * frontC inv mu - (frontB inv mu) ^ 2

/-- The per-target weight vector
`w = lambda_ * (inv_Sigma @ ones) + gamma * (inv_Sigma @ mu_vec)` with
`lambda_ = (C - B*r)/D` and `gamma = (A*r - B)/D` (lines 146-148). -/
def frontierWeight {n : ℕ} (inv : Matrix (Fin n) (Fin n) ℚ) (mu : Fin n → ℚ)
    (r : ℚ) : Fin n → ℚ :=
  let lambda_ : ℚ := (frontC inv mu - frontB inv mu * r) / frontD inv mu
  let gamma : ℚ := (frontA inv * r - frontB inv mu) / frontD inv mu
  fun i => lambda_ * (inv.mulVec (onesV n)) i + gamma * (inv.mulVec mu) i

/-- Result dictionary of `efficient_frontier_analytic` (lines 151-156). -/
structure FrontierResult (n : ℕ) where
  target_returns : List ℚ
  risks : List ℚ
  weights_list : List (Fin n → ℚ)
  cA : ℚ
  cB : ℚ
  cC : ℚ
  cD : ℚ
  ca : ℚ
  cb : ℚ
  ch : ℚ
deriving DecidableEq

/-- Embedding of `PortfolioService.efficient_frontier_analytic`
(portfolio_service.py lines 123-156).  `Sigma` is the covariance argument of
the source function; `invSigma` models `np.linalg.inv(Sigma_val)` (line 126),
the numerical inverse delivered by the numpy library; `sqrtFn` models
`np.sqrt`.  The body raises (returns `.error`) exactly when `D <= 0`
(lines 133-134); otherwise it returns the frontier, with no explicit
renormalization of the weight vectors. -/
def efficient_frontier_analytic {n : ℕ} (sqrtFn : ℚ → ℚ) (mu : Fin n → ℚ)
    (Sigma invSigma : Matrix (Fin n) (Fin n) ℚ) (return_targets : List ℚ) :
    Except FrontierError (FrontierResult n) :=
  let A := frontA invSigma
  let B := frontB invSigma mu
  let C := frontC invSigma mu
  let D := frontD invSigma mu
  if D ≤ 0 then Except.error FrontierError.degenerateFrontier
  else
    let a := 1 / A
    let b := A / D
    let h := B / A
    Except.ok
      { target_returns := return_targets
        risks := return_targets.map (fun r => sqrtFn (max (a + b * (r - h) ^ 2) 0))
        weights_list := return_targets.map (fun r => frontierWeight invSigma mu r)
        cA := A, cB := B, cC := C, cD := D, ca := a, cb := b, ch := h }

instance {ε α : Type} [DecidableEq ε] [DecidableEq α] : DecidableEq (Except ε α) :=
  fun a b =>
    match a, b with
    | .error e, .error f =>
      if h : e = f then Decidable.isTrue (by rw [h])
      else Decidable.isFalse (by intro hh; cases hh; exact h rfl)
    | .ok x, .ok y =>
      if h : x = y then Decidable.isTrue (by rw [h])
      else Decidable.isFalse (by intro hh; cases hh; exact h rfl)
    | .error _, .ok _ => Decidable.isFalse (by intro hh; cases hh)
    | .ok _, .error _ => Decidable.isFalse (by intro hh; cases hh)

/-! ## Feasible-set sampler (portfolio_service.sample_feasible_portfolios) -/

/-- Abstract model of the numpy random generator library
(`np.random.default_rng` and the `dirichlet` / `standard normal` draws used
at lines 173, 176 and 184).  `S` is the generator's hidden state. -/
structure Rng (S : Type) (n : ℕ) where
  init : ℕ → S
  dirichlet : S → (Fin n → ℚ) × S
  normal : S → (Fin n → ℚ) × S

/-- One sampled portfolio: a row of the returned DataFrame
(risk, return, weight vector), lines 179-180 / 192-193 / 195. -/
structure SampleRec (n : ℕ) where
  risk : ℚ
  ret : ℚ
  w : Fin n → ℚ
deriving DecidableEq

/-- Portfolio return `ret = float(w @ mu.values)` (lines 177, 190). -/
def portRet {n : ℕ} (mu w : Fin n → ℚ) : ℚ := Matrix.dotProduct w mu

/-- Portfolio variance `var = float(w.T @ Sigma.values @ w)` (lines 178, 191). -/
def portVar {n : ℕ} (Sigma : Matrix (Fin n) (Fin n) ℚ) (w : Fin n → ℚ) : ℚ :=
  Matrix.dotProduct w (Sigma.mulVec w)

/-- The `for _ in range(num_samples)` loop of the no-short branch
(lines 175-180): one Dirichlet draw per iteration, no rejection. -/
def noShortLoop {S : Type} {n : ℕ} (G : Rng S n) (sqrtFn : ℚ → ℚ)
    (mu : Fin n → ℚ) (Sigma : Matrix (Fin n) (Fin n) ℚ) :
    ℕ → S → List (SampleRec n)
  | 0, _ => []
  | k + 1, s =>
    let d := G.dirichlet s
    { risk := sqrtFn (max (portVar Sigma d.1) 0)
      ret := portRet mu d.1
      w := d.1 } :: noShortLoop G sqrtFn mu Sigma k d.2

/-- The `while count < num_samples` rejection loop of the short-allowed
branch (lines 182-194).  The source loop has **no** iteration bound; it is
embedded with an explicit budget `fuel`, and `none` means the loop has not
finished within `fuel` iterations.  A draw is rejected when its sum is
within numpy's `isclose` default absolute tolerance 1e-8 of zero (line 185)
or when the L1 norm of the normalized vector exceeds `max_leverage`
(line 188). -/
def shortLoop {S : Type} {n : ℕ} (G : Rng S n) (sqrtFn : ℚ → ℚ)
    (mu : Fin n → ℚ) (Sigma : Matrix (Fin n) (Fin n) ℚ) (max_leverage : ℚ) :
    ℕ → ℕ → S → Option (List (SampleRec n))
  | _, 0, _ => some []
  | 0, _ + 1, _ => none
  | fuel + 1, k + 1, s =>
    let d := G.normal s
    if |∑ i, d.1 i| ≤ 1 / 100000000 then
      shortLoop G sqrtFn mu Sigma max_leverage fuel (k + 1) d.2
    else
      let wn : Fin n → ℚ := fun i => d.1 i / (∑ j, d.1 j)
      if max_leverage < ∑ i, |wn i| then
        shortLoop G sqrtFn mu Sigma max_leverage fuel (k + 1) d.2
      else
        (shortLoop G sqrtFn mu Sigma max_leverage fuel k d.2).map
          (fun rest =>
            { risk := sqrtFn (max (portVar Sigma wn) 0)
              ret := portRet mu wn
              w := wn } :: rest)

/-- Embedding of `PortfolioService.sample_feasible_portfolios`
(portfolio_service.py lines 161-196).  The source constructs its own
deterministically seeded generator `rng = np.random.default_rng(42)`
(line 173); to state that it does **not** read any process-wide generator,
the embedding also receives the state `ambient` such a shared generator
would have at call time, and (like the source) ignores it. -/
def sample_feasible_portfolios {S : Type} {n : ℕ} (G : Rng S n)
    (sqrtFn : ℚ → ℚ) (mu : Fin n → ℚ) (Sigma : Matrix (Fin n) (Fin n) ℚ)
    (allow_short : Bool) (num_samples : ℕ) (max_leverage : ℚ)
    (fuel : ℕ) (ambient : S) : Option (List (SampleRec n)) :=
  let rng := G.init 42
  if !allow_short then some (noShortLoop G sqrtFn mu Sigma num_samples rng)
  else shortLoop G sqrtFn mu Sigma max_leverage fuel num_samples rng

/-- A draw stream used by concrete witnesses: `dirichlet` always yields
`(1/2, 1/2)` and `normal` always yields `(1, 0)` (sum 1, L1 norm 1). -/
def constRng2 : Rng Unit 2 :=
  { init := fun _ => ()
    dirichlet := fun _ => (![1/2, 1/2], ())
    normal := fun _ => (![1, 0], ()) }

/-- A draw stream on which every short-allowed draw is rejected: `normal`
always yields `(2, -1)`, whose normalized L1 norm is 3 > the leverage cap 2
used in the counterexample. -/
def rejectRng2 : Rng Unit 2 :=
  { init := fun _ => ()
    dirichlet := fun _ => (![1/2, 1/2], ())
    normal := fun _ => (![2, -1], ()) }

/-! ## Composition selector (portfolio_service._select_composition_weights) -/

/-- First index of the maximum of a list, scanning with current best
(`np.argmax` / `Series.idxmax` return the first occurrence). -/
def argmaxFrom (bv : ℚ) (bi i : ℕ) : List ℚ → ℕ
  | [] => bi
  | y :: ys => if bv < y then argmaxFrom y i (i + 1) ys else argmaxFrom bv bi (i + 1) ys

/-- Model of `np.argmax` over a rational list (0 on the empty list). -/
def argmaxIdx : List ℚ → ℕ
  | [] => 0
  | x :: xs => argmaxFrom x 0 1 xs

/-- First index of the minimum of a list
(`np.argmin` / `Series.idxmin` return the first occurrence). -/
def argminFrom (bv : ℚ) (bi i : ℕ) : List ℚ → ℕ
  | [] => bi
  | y :: ys => if y < bv then argminFrom y i (i + 1) ys else argminFrom bv bi (i + 1) ys

/-- Model of `np.argmin` over a rational list (0 on the empty list). -/
def argminIdx : List ℚ → ℕ
  | [] => 0
  | x :: xs => argminFrom x 0 1 xs

/-- First index of the maximum over (index, value) pairs; `none` on the
empty list.  Models `Series.idxmax` over the non-NaN entries. -/
def idxmaxPairsFrom (bv : ℚ) (bi : ℕ) : List (ℕ × ℚ) → ℕ
  | [] => bi
  | p :: rest => if bv < p.2 then idxmaxPairsFrom p.2 p.1 rest else idxmaxPairsFrom bv bi rest

/-- Model of `Series.idxmax` with NaN skipping (`none` when every entry is NaN, in
which case the source's `int(...idxmax())` raises). -/
def idxmaxPairs : List (ℕ × ℚ) → Option ℕ
  | [] => none
  | p :: rest => some (idxmaxPairsFrom p.2 p.1 rest)

/-- Sharpe selection over the sampled DataFrame (lines 270-272): risk-zero
rows become NaN via `replace(0, np.nan)` and are skipped by `idxmax`. -/
def sampledSharpeIdx {n : ℕ} (rf : ℚ) (recs : List (SampleRec n)) : Option ℕ :=
  idxmaxPairs
    ((recs.enum.filter (fun p => decide (p.2.risk ≠ 0))).map
      (fun p => (p.1, (p.2.ret - rf) / p.2.risk)))

/-- Embedding of `PortfolioService._tangency_weights` (lines 199-205); `invSigma` models
`np.linalg.inv(Sigma.values)`.  Over ℚ, division by a zero normalizer gives
0 where the float source would give inf/NaN; no claim exercises that case. -/
def _tangency_weights {n : ℕ} (invSigma : Matrix (Fin n) (Fin n) ℚ)
    (mu : Fin n → ℚ) (r_f : ℚ) : Fin n → ℚ :=
  let w0 := invSigma.mulVec (fun i => mu i - r_f)
  fun i => w0 i / (∑ j, w0 j)

/-- Embedding of `PortfolioService._min_variance_weights` (lines 207-212). -/
def _min_variance_weights {n : ℕ} (invSigma : Matrix (Fin n) (Fin n) ℚ) :
    Fin n → ℚ :=
  let w0 := invSigma.mulVec (onesV n)
  fun i => w0 i / (∑ j, w0 j)

/-- The no-short post-processing applied to a selected vector (inlined
twice in the source, lines 250-254 and 284-288): clip negatives to zero,
then renormalize **only if** the clipped sum is positive. -/
def clipRenorm {n : ℕ} (w : Fin n → ℚ) : Fin n → ℚ :=
  let c := fun i => max (w i) 0
  if 0 < ∑ i, c i then (fun i => c i / ∑ j, c j) else c

/-- Fallback path of `_select_composition_weights` (lines 257-289), used
when no frontier data is available.  `lowerFn`-normalized mode `m` is
passed in by the caller. -/
def _select_fallback {n : ℕ} (m : String) (mu : Fin n → ℚ)
    (invSigma : Matrix (Fin n) (Fin n) ℚ) (r_f : Option ℚ)
    (allow_short : Bool) (sampled : Option (List (SampleRec n)))
    (ctr : Option ℚ) : Option (Fin n → ℚ) :=
  if allow_short then
    if m = "tangency" ∧ r_f.isSome then
      some (_tangency_weights invSigma mu (r_f.getD 0))
    else if m = "min_variance" then some (_min_variance_weights invSigma)
    else some (fun _ => 1 / (n : ℚ))
  else
    match sampled with
    | none => some (fun _ => 1 / (n : ℚ))
    | some recs =>
      if recs.length = 0 then some (fun _ => 1 / (n : ℚ))
      else
        let dflt : SampleRec n := { risk := 0, ret := 0, w := fun _ => 0 }
        let wsel : Option (Fin n → ℚ) :=
          if m = "tangency" ∧ r_f.isSome then
            (sampledSharpeIdx (r_f.getD 0) recs).map (fun i => (recs.getD i dflt).w)
          else if m = "min_variance" then
            some ((recs.getD (argminIdx (recs.map (fun r => r.risk))) dflt).w)
          else if m = "target_return" ∧ ctr.isSome then
            some ((recs.getD
              (argminIdx (recs.map (fun r => |r.ret - ctr.getD 0|))) dflt).w)
          else
            some (((recs.mergeSort (fun a b => decide (a.ret ≤ b.ret))).getD
              (recs.length / 2) dflt).w)
        wsel.map clipRenorm

/-- Embedding of `PortfolioService._select_composition_weights`
(portfolio_service.py lines 214-289).  `lowerFn` models the Python string
method `str.lower` (line 228); `invSigma` models `np.linalg.inv(Sigma)`
inside the tangency/min-variance fallbacks; `sampled` is the sampled
DataFrame as a list of (risk, return, weights) rows with its default
integer index.  The result is `none` exactly when the source would raise
(`int(idxmax)` over an all-NaN Sharpe column). -/
def _select_composition_weights {n : ℕ} (lowerFn : String → String)
    (mode : String) (mu : Fin n → ℚ) (invSigma : Matrix (Fin n) (Fin n) ℚ)
    (r_f : Option ℚ) (allow_short : Bool)
    (ef_weights : Option (List (Fin n → ℚ))) (ef_targets : Option (List ℚ))
    (ef_risks : Option (List ℚ)) (sampled : Option (List (SampleRec n)))
    (ctr : Option ℚ) : Option (Fin n → ℚ) :=
  let m := lowerFn (if mode = "" then "tangency" else mode)
  match ef_weights, ef_targets, ef_risks with
  | some ws, some ts, some rs =>
    if 0 < ws.length then
      let w :=
        if m = "tangency" ∧ r_f.isSome then
          ws.getD (argmaxIdx (List.zipWith (fun t r => (t - r_f.getD 0) / r) ts rs))
            (fun _ => 0)
        else if m = "min_variance" then ws.getD (argminIdx rs) (fun _ => 0)
        else if m = "target_return" ∧ ctr.isSome then
          ws.getD (argminIdx (ts.map (fun t => |t - ctr.getD 0|))) (fun _ => 0)
        else ws.getD (ws.length / 2) (fun _ => 0)
      some (if allow_short then w else clipRenorm w)
    else _select_fallback m mu invSigma r_f allow_short sampled ctr
  | _, _, _ => _select_fallback m mu invSigma r_f allow_short sampled ctr

/-! ## Moment estimator (portfolio_service.estimate_mu_sigma) -/

/-- The return-computation method (`method` parameter, `simple` or `log`). -/
inductive RetMethod where
  | simple
  | log
deriving DecidableEq

/-- Lines 107-111: `rets = np.log(prices/prices.shift(1))` or
`prices.pct_change()`, then `rets.dropna(how="any")`.  Prices are a list of
time rows over `n` assets (no missing values after the upstream inner
join), so dropping rows with undefined entries drops exactly the first
row: each remaining row `t` holds `p[t+1]/p[t] - 1` (or `logFn` of the
ratio).  `logFn` models `np.log`. -/
def portfolioReturns {n : ℕ} (method : RetMethod) (logFn : ℚ → ℚ)
    (prices : List (Fin n → ℚ)) : List (Fin n → ℚ) :=
  match method with
  | .simple => List.zipWith (fun prev cur => fun i => cur i / prev i - 1) prices prices.tail
  | .log => List.zipWith (fun prev cur => fun i => logFn (cur i / prev i)) prices prices.tail

/-- Model of `Series.mean()` of a column: NaN (`none`) over zero rows (pandas mean
of an empty column), otherwise the arithmetic mean. -/
def colMean (xs : List ℚ) : Option ℚ :=
  if xs.length = 0 then none else some (xs.sum / xs.length)

/-- Model of a `DataFrame.cov()` entry (pandas sample covariance, `ddof = 1`): NaN
(`none`) with fewer than two rows. -/
def colCov (xs ys : List ℚ) : Option ℚ :=
  if xs.length ≤ 1 then none
  else
    let mx := xs.sum / xs.length
    let my := ys.sum / ys.length
    some ((List.zipWith (fun a b => (a - mx) * (b - my)) xs ys).sum /
      ((xs.length : ℚ) - 1))

/-- Embedding of the moment path of `PortfolioService.estimate_mu_sigma`
(portfolio_service.py lines 107-120), from an already loaded price matrix
(the loading and optional consolidation steps are separate functions).
`mu` entries are `Option ℚ` because `rets.mean()` is NaN over zero usable
rows; the function itself raises nothing on that path — there is no check
of the number of usable rows. -/
def estimate_mu_sigma {n : ℕ} (method : RetMethod) (logFn : ℚ → ℚ)
    (annualize : Bool) (periods_per_year : ℕ) (prices : List (Fin n → ℚ)) :
    (Fin n → Option ℚ) × (Fin n → Fin n → Option ℚ) :=
  let rets := portfolioReturns method logFn prices
  let mu_daily : Fin n → Option ℚ := fun i => colMean (rets.map (fun row => row i))
  let sigma_daily : Fin n → Fin n → Option ℚ := fun i j =>
    colCov (rets.map (fun row => row i)) (rets.map (fun row => row j))
  if annualize then
    (fun i => (mu_daily i).map (fun x => x * (periods_per_year : ℚ)),
      fun i j => (sigma_daily i j).map (fun x => x * (periods_per_year : ℚ)))
  else (mu_daily, sigma_daily)

/-! ## Correlation consolidator (analysis_service.py)

A correlation matrix entry is `Option ℚ`: `none` models a NaN entry (e.g.
the Pearson correlation of a constant, zero-variance return column, which
pandas surfaces as NaN).  Asset identifiers are the column indices
`Fin n`; the source uses the (distinct) ticker labels in column order,
which is the same indexing. -/

/-- The source's rejection test `abs(corr.loc[member, ticker_j]) < threshold`
(line 122) as it behaves in IEEE floats: any comparison with NaN is False,
so a NaN entry never fails the threshold test. -/
def nanAbsLtStrict (x : Option ℚ) (t : ℚ) : Bool :=
  match x with
  | none => false
  | some c => decide (|c| < t)

/-- Membership test of lines 120-124: `is_correlated` stays true iff no
current group member has `abs(corr) < threshold` against candidate `j`. -/
def joinTest {n : ℕ} (corr : Fin n → Fin n → Option ℚ) (t : ℚ)
    (group : List (Fin n)) (j : Fin n) : Bool :=
  group.all (fun m => !(nanAbsLtStrict (corr m j) t))

/-- Inner loop of `_find_correlated_groups` (lines 115-128): scan the later
indices `js`, skip those already visited, and append a candidate to both
the group and the visited set when `joinTest` passes. -/
def groupJoin {n : ℕ} (corr : Fin n → Fin n → Option ℚ) (t : ℚ) :
    List (Fin n) → List (Fin n) → List (Fin n) → List (Fin n) × List (Fin n)
  | [], group, visited => (group, visited)
  | j :: js, group, visited =>
    if j ∈ visited then groupJoin corr t js group visited
    else if joinTest corr t group j then
      groupJoin corr t js (group ++ [j]) (visited ++ [j])
    else groupJoin corr t js group visited

/-- Outer loop of `_find_correlated_groups` (lines 106-131): iterate the
assets in column order, skip visited ones, start a group at each survivor,
grow it over the strictly later indices, and keep it only if its size
exceeds 1 (line 130). -/
def groupOuter {n : ℕ} (corr : Fin n → Fin n → Option ℚ) (t : ℚ) :
    List (Fin n) → List (Fin n) → List (List (Fin n)) → List (List (Fin n))
  | [], _, groups => groups
  | i :: is_, visited, groups =>
    if i ∈ visited then groupOuter corr t is_ visited groups
    else
      let gv := groupJoin corr t is_ [i] (visited ++ [i])
      groupOuter corr t is_ gv.2
        (if 1 < gv.1.length then groups ++ [gv.1] else groups)

/-- Embedding of `AnalysisService._find_correlated_groups`
(analysis_service.py lines 99-133). -/
def _find_correlated_groups {n : ℕ} (corr : Fin n → Fin n → Option ℚ)
    (t : ℚ) : List (List (Fin n)) :=
  groupOuter corr t (List.finRange n) [] []

/-- The spec's own description of the grouping rule, written as it is
worded in spec §4.2: iterate the (still unassigned) assets in order, start
a group with the first, join each later unassigned asset exactly when its
test against every current member passes, carry the untouched assets (in
order) to the next round, and discard groups of size 1.  The recursion
carries the leftover list instead of a visited set. -/
def specGrow {n : ℕ} (corr : Fin n → Fin n → Option ℚ) (t : ℚ) :
    List (Fin n) → List (Fin n) → List (Fin n) × List (Fin n)
  | [], group => (group, [])
  | c :: cs, group =>
    if joinTest corr t group c then specGrow corr t cs (group ++ [c])
    else
      let gl := specGrow corr t cs group
      (gl.1, c :: gl.2)

/-- Outer loop of the spec-worded rule (see `specGrow`). -/
def specOuter {n : ℕ} (corr : Fin n → Fin n → Option ℚ) (t : ℚ) :
    List (Fin n) → List (List (Fin n))
  | [] => []
  | i :: rest =>
    (if 1 < (specGrow corr t rest [i]).1.length
      then [(specGrow corr t rest [i]).1] else []) ++
      specOuter corr t (specGrow corr t rest [i]).2
termination_by l => l.length
decreasing_by
  have key : ∀ (cs group : List (Fin n)),
      ((specGrow corr t cs group).2).length ≤ cs.length := by
    intro cs
    induction cs with
    | nil => intro group; simp [specGrow]
    | cons c cs ih =>
      intro group
      by_cases hj : joinTest corr t group c = true
      · simp only [specGrow, if_pos hj]
        exact le_trans (ih (group ++ [c])) (Nat.le_succ _)
      · simp only [specGrow, if_neg hj, List.length_cons]
        exact Nat.succ_le_succ (ih group)
  simp only [List.length_cons]
  exact Nat.lt_succ_of_le (key rest [i])

/-- The grouping rule exactly as the spec words it. -/
def find_correlated_groups_spec {n : ℕ} (corr : Fin n → Fin n → Option ℚ)
    (t : ℚ) : List (List (Fin n)) :=
  specOuter corr t (List.finRange n)

/-- Aggregation rule of `_create_representative_asset`
(`consolidation_method` parameter). -/
inductive CMethod where
  | mean
  | median
  | first
deriving DecidableEq

/-- Model of `Series.median()` of a row of group values (pandas: middle element of
the sorted values, average of the two middles when even; the empty case —
NaN in pandas — is never reached from a nonempty group). -/
def medianQ (l : List ℚ) : ℚ :=
  let s := l.mergeSort (fun a b => decide (a ≤ b))
  if l.length % 2 = 1 then s.getD (l.length / 2) 0
  else (s.getD (l.length / 2 - 1) 0 + s.getD (l.length / 2) 0) / 2

/-- Embedding of `AnalysisService._create_representative_asset`
(analysis_service.py lines 135-158): the row-wise mean / median of the
group's price columns, or the first member's column.  Only the series is
modelled; the composite display name (lines 151-157) does not affect the
consolidated data, since assigning the series to the existing first-member
column keeps that column's label. -/
def _create_representative_asset {n : ℕ} (prices : Fin n → List ℚ)
    (group : List (Fin n)) (cmethod : CMethod) : List ℚ :=
  match group with
  | [] => []
  | g0 :: _ =>
    match cmethod with
    | .mean =>
      (List.range (prices g0).length).map
        (fun tm => (group.map (fun m => (prices m).getD tm 0)).sum / group.length)
    | .median =>
      (List.range (prices g0).length).map
        (fun tm => medianQ (group.map (fun m => (prices m).getD tm 0)))
    | .first => prices g0

/-- Per-column return series of `AnalysisService.compute_returns`
(analysis_service.py lines 49-55): simple or log returns; the first row
(all-NaN) is dropped by `dropna(how="all")`, leaving one fewer row. -/
def seriesReturns (method : RetMethod) (logFn : ℚ → ℚ) (xs : List ℚ) :
    List ℚ :=
  match method with
  | .simple => List.zipWith (fun prev cur => cur / prev - 1) xs xs.tail
  | .log => List.zipWith (fun prev cur => logFn (cur / prev)) xs xs.tail

/-- Embedding of `AnalysisService.compute_returns`, column view. -/
def compute_returns {n : ℕ} (method : RetMethod) (logFn : ℚ → ℚ)
    (prices : Fin n → List ℚ) : Fin n → List ℚ :=
  fun i => seriesReturns method logFn (prices i)

/-- A DataFrame as its ordered list of (column label, column series)
pairs; labels are the original column indices, which consolidation
preserves for the kept columns. -/
def ofCols {n : ℕ} (prices : Fin n → List ℚ) : List (Fin n × List ℚ) :=
  (List.finRange n).map (fun i => (i, prices i))

/-- Result of `consolidate_correlated_assets` (the data fields; the
original and re-derived correlation matrices the source also returns are
pandas outputs, outside the embedding). -/
structure ConsolidationResult (n : ℕ) where
  groups : List (List (Fin n))
  consolidatedPrices : List (Fin n × List ℚ)
  consolidatedReturns : List (Fin n × List ℚ)
deriving DecidableEq

/-- Embedding of `AnalysisService.consolidate_correlated_assets`
(analysis_service.py lines 160-203).  `corr` models `rets.corr()`, the
pandas Pearson correlation of the computed returns (a library call); the
grouping, the representative substitution (replace the first member's
column, drop the remaining members' columns from both the price and the
return frame) are the source's own logic. -/
def consolidate_correlated_assets {n : ℕ} (method : RetMethod)
    (logFn : ℚ → ℚ) (prices : Fin n → List ℚ)
    (corr : Fin n → Fin n → Option ℚ) (t : ℚ) (cmethod : CMethod) :
    ConsolidationResult n :=
  let rets := compute_returns method logFn prices
  let groups := _find_correlated_groups corr t
  let step := fun (dfp : List (Fin n × List ℚ) × List (Fin n × List ℚ))
      (g : List (Fin n)) =>
    match g with
    | [] => dfp
    | first :: restg =>
      let rep := _create_representative_asset prices g cmethod
      let p1 := dfp.1.map (fun col => if col.1 = first then (col.1, rep) else col)
      (p1.filter (fun col => !(decide (col.1 ∈ restg))),
        dfp.2.filter (fun col => !(decide (col.1 ∈ restg))))
  let res := groups.foldl step (ofCols prices, ofCols rets)
  { groups := groups
    consolidatedPrices := res.1
    consolidatedReturns := res.2 }

/-- The correlation matrix of the C4 concrete scenario: three assets where
Y is X scaled by a positive constant each period, so their return series
coincide and the Pearson correlation of X and Y (computed exactly) is
exactly 1; the third asset has correlation 1/2 with both. -/
def corrXYZ : Fin 3 → Fin 3 → Option ℚ :=
  ![![some 1, some 1, some (1/2)],
    ![some 1, some 1, some (1/2)],
    ![some (1/2), some (1/2), some 1]]

/-- The C5 counterexample price frame: asset Y (column 1) is asset X
(column 0) scaled by 2 each period, so their simple return series are
identical and their exact Pearson correlation is 1. -/
def pricesXY : Fin 2 → List ℚ := ![[1, 2, 3], [2, 4, 6]]


/-! ## Theorems for C1 and C2 -/

theorem sum_eq_dot_ones {n : ℕ} (v : Fin n → ℚ) :
    (∑ i, v i) = Matrix.dotProduct (onesV n) v := by
  simp [Matrix.dotProduct, onesV]

theorem const_eq_smul_ones {n : ℕ} (c : ℚ) :
    (fun _ : Fin n => c) = c • onesV n := by
  funext i
  simp [onesV]

theorem frontB_const {n : ℕ} (inv : Matrix (Fin n) (Fin n) ℚ) (c : ℚ) :
    frontB inv (fun _ => c) = c * frontA inv := by
  unfold frontB frontA
  rw [const_eq_smul_ones, Matrix.mulVec_smul, Matrix.dotProduct_smul, smul_eq_mul]

theorem frontC_const {n : ℕ} (inv : Matrix (Fin n) (Fin n) ℚ) (c : ℚ) :
    frontC inv (fun _ => c) = c ^ 2 * frontA inv := by
  unfold frontC frontA
  rw [const_eq_smul_ones, Matrix.mulVec_smul, Matrix.dotProduct_smul,
    Matrix.smul_dotProduct, smul_eq_mul, smul_eq_mul]
  ring

/-- C1.  For every mean vector, exactly invertible covariance matrix (witnessed
by `invSigma * Sigma = 1`) with `D > 0`, and every weight vector in the list
returned by the analytic frontier solver for the supplied target grid, the
components of that weight vector sum to exactly 1 (hence certainly within the
claimed 1e-9 tolerance), with no renormalization step in the code. -/
theorem frontier_weights_sum_to_one {n : ℕ} (sqrtFn : ℚ → ℚ) (mu : Fin n → ℚ)
    (Sigma invSigma : Matrix (Fin n) (Fin n) ℚ) (return_targets : List ℚ)
    (res : FrontierResult n) (w : Fin n → ℚ)
    (hinv : invSigma * Sigma = 1)
    (hD : 0 < frontD invSigma mu)
    (hok : efficient_frontier_analytic sqrtFn mu Sigma invSigma return_targets =
      Except.ok res)
    (hw : w ∈ res.weights_list) :
    (∑ i, w i) = 1 := by
  unfold efficient_frontier_analytic at hok
  rw [if_neg (not_le.mpr hD)] at hok
  cases hok
  simp only [List.mem_map] at hw
  obtain ⟨r, _, rfl⟩ := hw
  have hsum1 : (∑ i, (invSigma.mulVec (onesV n)) i) = frontA invSigma :=
    (sum_eq_dot_ones _).trans rfl
  have hsum2 : (∑ i, (invSigma.mulVec mu) i) = frontB invSigma mu :=
    (sum_eq_dot_ones _).trans rfl
  unfold frontierWeight
  rw [Finset.sum_add_distrib, ← Finset.mul_sum, ← Finset.mul_sum, hsum1, hsum2]
  have hD0 : frontD invSigma mu ≠ 0 := ne_of_gt hD
  field_simp
  unfold frontD
  ring

unseal Rat.add Rat.mul Rat.inv Rat.sub in
/-- C1 witness: two assets, identity covariance (its own exact inverse),
`mu = (1, 2)`, one target return `3/2`; the weight vector the solver returns
for that target sums to 1. -/
theorem frontier_weights_sum_to_one_witness :
    (∑ i, frontierWeight (1 : Matrix (Fin 2) (Fin 2) ℚ) ![1, 2] (3/2) i) = 1 :=
  frontier_weights_sum_to_one (fun q => q) ![1, 2] 1 1 [3/2] _ _
    (by simp) (by decide) rfl (by simp)

/-- C2.  The analytic frontier solver computes `A, B, C, D` as stated and
fails with its (single) degenerate-frontier error exactly when `D ≤ 0`;
when `D > 0` it returns the frontier without error.  Moreover whenever the
mean vector is a scalar multiple `c` of the all-ones vector, `D = 0`, so the
solver fails on such configurations. -/
theorem frontier_degenerate_iff :
    (∀ (n : ℕ) (sqrtFn : ℚ → ℚ) (mu : Fin n → ℚ)
      (Sigma invSigma : Matrix (Fin n) (Fin n) ℚ) (targets : List ℚ),
      efficient_frontier_analytic sqrtFn mu Sigma invSigma targets =
        Except.error FrontierError.degenerateFrontier ↔ frontD invSigma mu ≤ 0) ∧
    (∀ (n : ℕ) (invSigma : Matrix (Fin n) (Fin n) ℚ) (c : ℚ),
      frontD invSigma (fun _ => c) = 0) := by
  constructor
  · intro n sqrtFn mu Sigma invSigma targets
    unfold efficient_frontier_analytic
    by_cases hD : frontD invSigma mu ≤ 0
    · simp [hD]
    · simp [hD]
  · intro n invSigma c
    unfold frontD
    rw [frontB_const, frontC_const]
    ring

/-! ## Theorems for C3, C6, C9 -/

theorem noShortLoop_length {S : Type} {n : ℕ} (G : Rng S n) (sqrtFn : ℚ → ℚ)
    (mu : Fin n → ℚ) (Sigma : Matrix (Fin n) (Fin n) ℚ) :
    ∀ (k : ℕ) (s : S), (noShortLoop G sqrtFn mu Sigma k s).length = k := by
  intro k
  induction k with
  | zero => intro s; rfl
  | succ m ih => intro s; simp [noShortLoop, ih]

theorem noShortLoop_mem {S : Type} {n : ℕ} (G : Rng S n) (sqrtFn : ℚ → ℚ)
    (mu : Fin n → ℚ) (Sigma : Matrix (Fin n) (Fin n) ℚ)
    (hdir : ∀ s : S, (∀ i, 0 ≤ (G.dirichlet s).1 i) ∧ (∑ i, (G.dirichlet s).1 i) = 1) :
    ∀ (k : ℕ) (s : S) (r : SampleRec n), r ∈ noShortLoop G sqrtFn mu Sigma k s →
      (∀ i, 0 ≤ r.w i) ∧ (∑ i, r.w i) = 1 := by
  intro k
  induction k with
  | zero => intro s r hr; cases hr
  | succ m ih =>
    intro s r hr
    cases hr with
    | head => exact hdir s
    | tail _ htail => exact ih _ _ htail

/-- C3.  In no-short mode the sampler draws each weight vector from the
library's Dirichlet distribution (whose support is the standard simplex: all
components nonnegative, summing to 1) with no rejection loop: for every
`numSamples ≥ 1` it returns exactly `numSamples` portfolios and every
returned weight vector has all components `≥ 0` and sums exactly to 1
(hence within the claimed 1e-9 tolerance). -/
theorem sampler_no_short_simplex {S : Type} {n : ℕ} (G : Rng S n)
    (sqrtFn : ℚ → ℚ) (mu : Fin n → ℚ) (Sigma : Matrix (Fin n) (Fin n) ℚ)
    (num_samples : ℕ) (max_leverage : ℚ) (fuel : ℕ) (ambient : S)
    (recs : List (SampleRec n))
    (hdir : ∀ s : S, (∀ i, 0 ≤ (G.dirichlet s).1 i) ∧ (∑ i, (G.dirichlet s).1 i) = 1)
    (hns : 1 ≤ num_samples)
    (hres : sample_feasible_portfolios G sqrtFn mu Sigma false num_samples
      max_leverage fuel ambient = some recs) :
    recs.length = num_samples ∧
      ∀ r ∈ recs, (∀ i, 0 ≤ r.w i) ∧ (∑ i, r.w i) = 1 := by
  unfold sample_feasible_portfolios at hres
  simp only [Bool.not_false, if_pos] at hres
  cases hres
  exact ⟨noShortLoop_length G sqrtFn mu Sigma _ _,
    fun r hr => noShortLoop_mem G sqrtFn mu Sigma hdir _ _ r hr⟩

unseal Rat.add Rat.mul Rat.inv Rat.sub in
/-- C3 witness: the constant simplex stream, one sample requested; the
sampler returns exactly one portfolio. -/
theorem sampler_no_short_simplex_witness :
    (noShortLoop constRng2 (fun q => q) (fun _ => 0)
      (0 : Matrix (Fin 2) (Fin 2) ℚ) 1 ()).length = 1 := by
  refine (sampler_no_short_simplex constRng2 (fun q => q) (fun _ => 0) 0 1 2 0 () _
    (fun s => ?_) (by decide) rfl).1
  constructor
  · intro i
    show (0 : ℚ) ≤ ![1/2, 1/2] i
    fin_cases i <;> decide
  · show (∑ i, (![(1 : ℚ)/2, 1/2]) i) = 1
    decide

/-- C6.  The sampler's output is a function of its declared inputs only: it
never reads the state any process-wide generator would have at call time
(it builds its own generator seeded with 42), so two calls with identical
`mu`, `Sigma`, `allowShort`, `numSamples` and `maxLeverage` — whatever
happened to any ambient generator in between — return identical feasible
sets: same risks, same returns, same weight vectors. -/
theorem sampler_deterministic {S : Type} {n : ℕ} (G : Rng S n)
    (sqrtFn : ℚ → ℚ) (mu : Fin n → ℚ) (Sigma : Matrix (Fin n) (Fin n) ℚ)
    (allow_short : Bool) (num_samples : ℕ) (max_leverage : ℚ) (fuel : ℕ)
    (ambient1 ambient2 : S) :
    sample_feasible_portfolios G sqrtFn mu Sigma allow_short num_samples
        max_leverage fuel ambient1 =
      sample_feasible_portfolios G sqrtFn mu Sigma allow_short num_samples
        max_leverage fuel ambient2 := rfl

theorem shortLoop_spec {S : Type} {n : ℕ} (G : Rng S n) (sqrtFn : ℚ → ℚ)
    (mu : Fin n → ℚ) (Sigma : Matrix (Fin n) (Fin n) ℚ) (lev : ℚ) :
    ∀ (fuel k : ℕ) (s : S) (recs : List (SampleRec n)),
      shortLoop G sqrtFn mu Sigma lev fuel k s = some recs →
      recs.length = k ∧ ∀ r ∈ recs, (∑ i, r.w i) = 1 ∧ (∑ i, |r.w i|) ≤ lev := by
  intro fuel
  induction fuel with
  | zero =>
    intro k s recs h
    cases k with
    | zero =>
      simp only [shortLoop, Option.some.injEq] at h
      subst h
      exact ⟨rfl, fun r hr => absurd hr (List.not_mem_nil r)⟩
    | succ m =>
      simp only [shortLoop] at h
      exact Option.noConfusion h
  | succ f ih =>
    intro k s recs h
    cases k with
    | zero =>
      simp only [shortLoop, Option.some.injEq] at h
      subst h
      exact ⟨rfl, fun r hr => absurd hr (List.not_mem_nil r)⟩
    | succ m =>
      simp only [shortLoop] at h
      by_cases h1 : |∑ i, (G.normal s).1 i| ≤ 1 / 100000000
      · rw [if_pos h1] at h
        exact ih (m + 1) _ recs h
      · rw [if_neg h1] at h
        by_cases h2 :
            lev < ∑ i, |(G.normal s).1 i / (∑ j, (G.normal s).1 j)|
        · rw [if_pos h2] at h
          exact ih (m + 1) _ recs h
        · rw [if_neg h2] at h
          cases hrest : shortLoop G sqrtFn mu Sigma lev f m (G.normal s).2 with
          | none => rw [hrest] at h; cases h
          | some rest =>
            rw [hrest] at h
            simp only [Option.map_some', Option.some.injEq] at h
            obtain ⟨hlen, hmem⟩ := ih m _ rest hrest
            subst h
            refine ⟨by simp [hlen], fun r hr => ?_⟩
            cases hr with
            | head =>
              have hs : (∑ j, (G.normal s).1 j) ≠ 0 := by
                intro h0
                exact h1 (by rw [h0]; norm_num)
              refine ⟨?_, le_of_not_lt h2⟩
              show (∑ i, (G.normal s).1 i / (∑ j, (G.normal s).1 j)) = 1
              rw [← Finset.sum_div]
              exact div_self hs
            | tail _ ht => exact hmem r ht

unseal Rat.add Rat.mul Rat.inv Rat.sub in
theorem rejectLoop_none :
    ∀ fuel : ℕ,
      shortLoop rejectRng2 (fun q => q) (fun _ => (0 : ℚ))
        (0 : Matrix (Fin 2) (Fin 2) ℚ) 2 fuel 1 () = none := by
  intro fuel
  induction fuel with
  | zero => rfl
  | succ f ih =>
    have c1 : ¬ (|∑ i, (rejectRng2.normal ()).1 i| ≤ 1 / 100000000) := by decide
    have c2 : (2 : ℚ) <
        ∑ i, |(rejectRng2.normal ()).1 i / (∑ j, (rejectRng2.normal ()).1 j)| := by
      decide
    simp only [shortLoop]
    rw [if_neg c1, if_pos c2]
    exact ih

/-- C9 (amended).  The short-allowed branch of the sampler is a rejection
loop with **no** bound on total attempts and no timeout error: draws whose
sum is within 1e-8 of zero, or whose post-normalization L1 norm exceeds
`maxLeverage`, are rejected and the loop simply retries, forever if
necessary.  Whenever the loop does finish, it returns exactly `numSamples`
accepted draws, each normalized to sum 1 and with L1 norm at most
`maxLeverage`; but on a draw stream whose every draw is rejected no
iteration budget suffices — the loop never terminates and never raises any
`SamplingTimeoutError` (the code contains no such error). -/
theorem sampler_short_unbounded_no_timeout :
    (∀ (S : Type) (n : ℕ) (G : Rng S n) (sqrtFn : ℚ → ℚ) (mu : Fin n → ℚ)
      (Sigma : Matrix (Fin n) (Fin n) ℚ) (num_samples : ℕ)
      (max_leverage : ℚ) (fuel : ℕ) (ambient : S) (recs : List (SampleRec n)),
      sample_feasible_portfolios G sqrtFn mu Sigma true num_samples
          max_leverage fuel ambient = some recs →
      recs.length = num_samples ∧
        ∀ r ∈ recs, (∑ i, r.w i) = 1 ∧ (∑ i, |r.w i|) ≤ max_leverage) ∧
    (∀ fuel : ℕ,
      sample_feasible_portfolios rejectRng2 (fun q => q) (fun _ => (0 : ℚ))
        (0 : Matrix (Fin 2) (Fin 2) ℚ) true 1 2 fuel () = none) := by
  constructor
  · intro S n G sqrtFn mu Sigma num_samples max_leverage fuel ambient recs h
    exact shortLoop_spec G sqrtFn mu Sigma max_leverage fuel num_samples _ recs h
  · intro fuel
    exact rejectLoop_none fuel

unseal Rat.add Rat.mul Rat.inv Rat.sub in
/-- C9 witness: on a stream whose first draw `(1, 0)` is accepted
(sum 1, L1 norm 1 ≤ 2), one requested sample is collected within one
iteration, and the returned list has length 1. -/
theorem sampler_short_unbounded_no_timeout_witness :
    ((shortLoop constRng2 (fun q => q) (fun _ => (0 : ℚ))
      (0 : Matrix (Fin 2) (Fin 2) ℚ) 2 1 1 ()).getD []).length = 1 := by
  obtain ⟨h1, _⟩ := sampler_short_unbounded_no_timeout.1 Unit 2 constRng2
    (fun q => q) (fun _ => 0) 0 1 2 1 () _ rfl
  exact h1

/-- C9 counterexample: after 100 attempts on a stream whose every draw is
rejected (normalized L1 norm 3 > leverage cap 2), the loop has produced
nothing and raised nothing — contradicting the claim that total attempts
are bounded and a `SamplingTimeoutError` is raised when the bound is
exceeded: the code has no attempt bound and no such error. -/
theorem sampler_short_no_timeout_counterexample :
    sample_feasible_portfolios rejectRng2 (fun q => q) (fun _ => (0 : ℚ))
      (0 : Matrix (Fin 2) (Fin 2) ℚ) true 1 2 100 () = none :=
  rejectLoop_none 100

/-! ## Theorems for C7 -/

theorem clipRenorm_sum_one_or_zero {n : ℕ} (w : Fin n → ℚ) :
    (∑ i, clipRenorm w i) = 1 ∨ ∀ i, clipRenorm w i = 0 := by
  unfold clipRenorm
  by_cases hs : 0 < ∑ i, max (w i) 0
  · left
    rw [if_pos hs, ← Finset.sum_div]
    exact div_self (ne_of_gt hs)
  · right
    rw [if_neg hs]
    have hz : (∑ i, max (w i) 0) = 0 :=
      le_antisymm (not_lt.mp hs) (Finset.sum_nonneg fun i _ => le_max_right _ _)
    intro i
    exact (Finset.sum_eq_zero_iff_of_nonneg
      (fun j _ => le_max_right (w j) 0)).mp hz i (Finset.mem_univ i)

theorem equalWeight_sum_one_or_zero (n : ℕ) :
    (∑ _i : Fin n, (1 / (n : ℚ))) = 1 ∨ ∀ _i : Fin n, (1 / (n : ℚ)) = 0 := by
  cases n with
  | zero => right; intro i; exact absurd i.2 (Nat.not_lt_zero i.1)
  | succ m =>
    left
    rw [Finset.sum_const, Finset.card_univ, Fintype.card_fin, nsmul_eq_mul]
    rw [mul_one_div]
    exact div_self (by exact_mod_cast Nat.succ_ne_zero m)

theorem fallback_no_short_sum {n : ℕ} (m : String) (mu : Fin n → ℚ)
    (invSigma : Matrix (Fin n) (Fin n) ℚ) (r_f : Option ℚ)
    (sampled : Option (List (SampleRec n))) (ctr : Option ℚ) (w : Fin n → ℚ)
    (hsel : _select_fallback m mu invSigma r_f false sampled ctr = some w) :
    (∑ i, w i) = 1 ∨ ∀ i, w i = 0 := by
  unfold _select_fallback at hsel
  simp only [Bool.false_eq_true, if_false] at hsel
  cases sampled with
  | none =>
    cases hsel
    exact equalWeight_sum_one_or_zero n
  | some recs =>
    dsimp only at hsel
    by_cases hlen : recs.length = 0
    · rw [if_pos hlen] at hsel
      cases hsel
      exact equalWeight_sum_one_or_zero n
    · rw [if_neg hlen] at hsel
      split at hsel
      · cases hidx : sampledSharpeIdx (r_f.getD 0) recs with
        | none => rw [hidx] at hsel; cases hsel
        | some i =>
          rw [hidx] at hsel
          simp only [Option.map_some', Option.some.injEq] at hsel
          subst hsel
          exact clipRenorm_sum_one_or_zero _
      · split at hsel
        · simp only [Option.map_some', Option.some.injEq] at hsel
          subst hsel
          exact clipRenorm_sum_one_or_zero _
        · split at hsel
          · simp only [Option.map_some', Option.some.injEq] at hsel
            subst hsel
            exact clipRenorm_sum_one_or_zero _
          · simp only [Option.map_some', Option.some.injEq] at hsel
            subst hsel
            exact clipRenorm_sum_one_or_zero _

/-- C7 (amended).  Whenever short selling is disallowed, every vector the
Composition Selector returns — from the frontier path, the sampled
fallback, or the equal-weight fallback, under every selection mode — is the
selected vector with negative components clipped to zero and renormalized
to sum 1 **when the clipped vector has positive sum**; when the clipped
vector sums to 0 (e.g. the selected vector was componentwise nonpositive)
the zero vector is returned without renormalization.  Hence the returned
vector sums to 1 or is identically zero; the original claim's assertion
that the result sums to 1 even for an all-negative selection is false. -/
theorem select_no_short_sum_one_or_zero {n : ℕ} (lowerFn : String → String)
    (mode : String) (mu : Fin n → ℚ) (invSigma : Matrix (Fin n) (Fin n) ℚ)
    (r_f : Option ℚ) (ef_weights : Option (List (Fin n → ℚ)))
    (ef_targets : Option (List ℚ)) (ef_risks : Option (List ℚ))
    (sampled : Option (List (SampleRec n))) (ctr : Option ℚ) (w : Fin n → ℚ)
    (hsel : _select_composition_weights lowerFn mode mu invSigma r_f false
      ef_weights ef_targets ef_risks sampled ctr = some w) :
    (∑ i, w i) = 1 ∨ ∀ i, w i = 0 := by
  unfold _select_composition_weights at hsel
  cases ef_weights with
  | none => exact fallback_no_short_sum _ mu invSigma r_f sampled ctr w hsel
  | some ws =>
    cases ef_targets with
    | none => exact fallback_no_short_sum _ mu invSigma r_f sampled ctr w hsel
    | some ts =>
      cases ef_risks with
      | none => exact fallback_no_short_sum _ mu invSigma r_f sampled ctr w hsel
      | some rs =>
        dsimp only at hsel
        by_cases hlen : 0 < ws.length
        · rw [if_pos hlen] at hsel
          simp only [Bool.false_eq_true, if_false, Option.some.injEq] at hsel
          subst hsel
          exact clipRenorm_sum_one_or_zero _
        · rw [if_neg hlen] at hsel
          exact fallback_no_short_sum _ mu invSigma r_f sampled ctr w hsel

unseal Rat.add Rat.mul Rat.inv Rat.sub in
/-- C7 witness: no frontier data, no samples, two assets — the selector
returns the equal-weight vector, which sums to 1 (not the zero vector,
since its first component is 1/2 ≠ 0). -/
theorem select_no_short_sum_one_or_zero_witness :
    (∑ _i : Fin 2, ((1 : ℚ) / 2)) = 1 := by
  have h := select_no_short_sum_one_or_zero (fun s => s) "x" (fun _ => (0 : ℚ))
    (0 : Matrix (Fin 2) (Fin 2) ℚ) none none none none none none
    (fun _ => 1 / ((2 : ℕ) : ℚ)) rfl
  have h2 : (∑ _i : Fin 2, (1 / ((2 : ℕ) : ℚ))) = 1 :=
    h.resolve_right (fun hz => by have := hz 0; norm_num at this)
  norm_num at h2
  convert h2 using 2
  norm_num

unseal Rat.add Rat.mul Rat.inv Rat.sub in
/-- C7 counterexample: with `allowShort = false`, mode `min_variance`, and
a frontier whose (single) selected weight vector is all-negative
`(-1/2, -1/2)`, the selector returns a vector whose components sum to 0 —
not 1 — because after clipping to `(0, 0)` the `if w.sum() > 0` guard
skips renormalization.  This refutes the claim that the returned vector
always sums to 1, including for all-negative selections. -/
theorem select_no_short_counterexample :
    ((_select_composition_weights (fun s => s) "min_variance"
        (fun _ => (0 : ℚ)) (0 : Matrix (Fin 2) (Fin 2) ℚ) none false
        (some [fun _ => -1/2]) (some [0]) (some [1]) none none).map
      (fun w => ∑ i, w i)) = some 0 ∧ (0 : ℚ) ≠ 1 := by
  constructor
  · have hv : _select_composition_weights (fun s => s) "min_variance"
        (fun _ => (0 : ℚ)) (0 : Matrix (Fin 2) (Fin 2) ℚ) none false
        (some [fun _ => -1/2]) (some [0]) (some [1]) none none =
        some (clipRenorm (fun _ : Fin 2 => -1/2)) := rfl
    rw [hv]
    simp only [Option.map_some', Option.some.injEq]
    have hz : ∀ i : Fin 2, clipRenorm (fun _ : Fin 2 => -(1 : ℚ)/2) i = 0 := by
      decide
    rw [Fin.sum_univ_two, hz 0, hz 1]
    norm_num
  · norm_num

/-! ## Theorems for C8 -/

theorem portfolioReturns_nil_of_short {n : ℕ} (method : RetMethod)
    (logFn : ℚ → ℚ) (prices : List (Fin n → ℚ)) (hlen : prices.length ≤ 1) :
    portfolioReturns method logFn prices = [] := by
  cases prices with
  | nil => cases method <;> rfl
  | cons p rest =>
    cases rest with
    | nil => cases method <;> rfl
    | cons q rest2 => simp at hlen

/-- C8 (amended).  When the return matrix has zero usable rows (at most one
price row, so every return row is dropped), `estimate_mu_sigma` raises no
error — the code contains no check on the number of usable rows — and
silently returns moments whose every entry is NaN: pandas `mean`/`cov`
over an empty frame. -/
theorem estimate_mu_sigma_nan_on_empty {n : ℕ} (method : RetMethod)
    (logFn : ℚ → ℚ) (annualize : Bool) (periods_per_year : ℕ)
    (prices : List (Fin n → ℚ)) (hlen : prices.length ≤ 1) :
    (∀ i, (estimate_mu_sigma method logFn annualize periods_per_year prices).1 i
      = none) ∧
    (∀ i j, (estimate_mu_sigma method logFn annualize periods_per_year prices).2 i j
      = none) := by
  have hr := portfolioReturns_nil_of_short method logFn prices hlen
  unfold estimate_mu_sigma
  rw [hr]
  cases annualize <;>
    simp [colMean, colCov]

/-- C8 witness: a single price row `(1, 2)` gives zero return rows, and the
annualized mean of the first asset is NaN. -/
theorem estimate_mu_sigma_nan_on_empty_witness :
    (estimate_mu_sigma RetMethod.simple (fun q => q) true 252 [![1, 2]]).1 0
      = none :=
  (estimate_mu_sigma_nan_on_empty RetMethod.simple (fun q => q) true 252
    [![1, 2]] (by decide)).1 0

/-- C8 counterexample: on the single-row price matrix `[(1, 2)]` the return
matrix has zero usable rows, yet `estimate_mu_sigma` returns normally — its
value is a (μ, Σ) pair with every entry NaN — instead of failing with any
`InsufficientDataError` (the function, embedded as a total function from
prices to moments, has no error outcome at all on this path). -/
theorem estimate_mu_sigma_silent_nan_counterexample :
    (estimate_mu_sigma RetMethod.simple (fun q => q) true 252 [![1, 2]]).1
        = (fun _ : Fin 2 => (none : Option ℚ)) ∧
      (estimate_mu_sigma RetMethod.simple (fun q => q) true 252 [![1, 2]]).2
        = (fun _ _ : Fin 2 => (none : Option ℚ)) := by
  constructor <;> rfl

/-! ## Theorems for C4, C5, C10 -/

theorem specGrow_shape {n : ℕ} (corr : Fin n → Fin n → Option ℚ) (t : ℚ) :
    ∀ (cs group : List (Fin n)), ∃ d,
      (specGrow corr t cs group).1 = group ++ d ∧ ∀ x ∈ d, x ∈ cs := by
  intro cs
  induction cs with
  | nil =>
    intro group
    exact ⟨[], by simp [specGrow], by simp⟩
  | cons c cs ih =>
    intro group
    by_cases hj : joinTest corr t group c = true
    · obtain ⟨d, hd, hsub⟩ := ih (group ++ [c])
      refine ⟨c :: d, ?_, ?_⟩
      · simp only [specGrow, if_pos hj]
        rw [hd, List.append_assoc, List.singleton_append]
      · intro x hx
        cases hx with
        | head => exact List.mem_cons_self c cs
        | tail _ ht => exact List.mem_cons_of_mem c (hsub x ht)
    · obtain ⟨d, hd, hsub⟩ := ih group
      refine ⟨d, ?_, fun x hx => List.mem_cons_of_mem c (hsub x hx)⟩
      simp only [specGrow, if_neg hj]
      exact hd

theorem groupJoin_spec {n : ℕ} (corr : Fin n → Fin n → Option ℚ) (t : ℚ) :
    ∀ (cs group v : List (Fin n)), cs.Nodup → (∀ x ∈ cs, x ∉ group) →
      groupJoin corr t cs group v =
        ((specGrow corr t (cs.filter (fun x => !(decide (x ∈ v)))) group).1,
          v ++ ((specGrow corr t (cs.filter (fun x => !(decide (x ∈ v)))) group).1).drop
            group.length) ∧
      cs.filter (fun x => !(decide (x ∈ v ++
          ((specGrow corr t (cs.filter (fun x => !(decide (x ∈ v)))) group).1).drop
            group.length)))
        = (specGrow corr t (cs.filter (fun x => !(decide (x ∈ v)))) group).2 := by
  intro cs
  induction cs with
  | nil =>
    intro group v _ _
    constructor
    · simp [groupJoin, specGrow, List.drop_length]
    · simp [specGrow]
  | cons j cs ih =>
    intro group v hnd hg
    have hjcs : j ∉ cs := (List.nodup_cons.mp hnd).1
    have hndtail : cs.Nodup := (List.nodup_cons.mp hnd).2
    have hgtail : ∀ x ∈ cs, x ∉ group := fun x hx => hg x (List.mem_cons_of_mem j hx)
    by_cases hjv : j ∈ v
    · have hfilter : (j :: cs).filter (fun x => !(decide (x ∈ v)))
          = cs.filter (fun x => !(decide (x ∈ v))) := by
        simp [List.filter_cons, hjv]
      have hrec := ih group v hndtail hgtail
      have hgj : groupJoin corr t (j :: cs) group v = groupJoin corr t cs group v := by
        simp [groupJoin, hjv]
      constructor
      · rw [hgj, hfilter]
        exact hrec.1
      · rw [hfilter]
        have hjfull : j ∈ v ++ ((specGrow corr t
            (cs.filter (fun x => !(decide (x ∈ v)))) group).1).drop group.length :=
          List.mem_append_left _ hjv
        rw [List.filter_cons_of_neg (by simp [hjfull])]
        exact hrec.2
    · have hfilter : (j :: cs).filter (fun x => !(decide (x ∈ v)))
          = j :: cs.filter (fun x => !(decide (x ∈ v))) := by
        simp [List.filter_cons, hjv]
      by_cases hj : joinTest corr t group j = true
      · have hgj : groupJoin corr t (j :: cs) group v
            = groupJoin corr t cs (group ++ [j]) (v ++ [j]) := by
          simp [groupJoin, hjv, hj]
        have hfv : cs.filter (fun x => !(decide (x ∈ v ++ [j])))
            = cs.filter (fun x => !(decide (x ∈ v))) := by
          apply List.filter_congr
          intro x hx
          have hxj : x ≠ j := fun he => hjcs (he ▸ hx)
          simp [List.mem_append, hxj]
        have hrec := ih (group ++ [j]) (v ++ [j]) hndtail (fun x hx => by
          have h1 := hgtail x hx
          have h2 : x ≠ j := fun he => hjcs (he ▸ hx)
          simp [List.mem_append, h1, h2])
        rw [hfv] at hrec
        have hspec : specGrow corr t ((j :: cs).filter (fun x => !(decide (x ∈ v)))) group
            = specGrow corr t (cs.filter (fun x => !(decide (x ∈ v)))) (group ++ [j]) := by
          rw [hfilter]
          simp [specGrow, hj]
        obtain ⟨d, hd, hdsub⟩ :=
          specGrow_shape corr t (cs.filter (fun x => !(decide (x ∈ v)))) (group ++ [j])
        have hdrop1 : ((specGrow corr t (cs.filter (fun x => !(decide (x ∈ v))))
            (group ++ [j])).1).drop group.length = j :: d := by
          rw [hd, List.append_assoc, List.drop_left, List.singleton_append]
        have hdrop2 : ((specGrow corr t (cs.filter (fun x => !(decide (x ∈ v))))
            (group ++ [j])).1).drop (group ++ [j]).length = d := by
          rw [hd, List.drop_left]
        constructor
        · rw [hgj, hrec.1, hspec, hdrop1, hdrop2]
          rw [List.append_assoc, List.singleton_append]
        · rw [hspec, hdrop1]
          have hjin : j ∈ v ++ j :: d := List.mem_append_right _ (List.mem_cons_self j d)
          rw [List.filter_cons_of_neg (by simp [hjin])]
          have hpred : cs.filter (fun x => !(decide (x ∈ v ++ j :: d)))
              = cs.filter (fun x => !(decide (x ∈ (v ++ [j]) ++ d))) := by
            apply List.filter_congr
            intro x _
            have : (x ∈ v ++ j :: d) ↔ (x ∈ (v ++ [j]) ++ d) := by
              simp [List.mem_append, List.mem_cons, or_assoc]
            simp [this]
          rw [hpred]
          have h2 := hrec.2
          rw [hdrop2] at h2
          exact h2
      · have hgj : groupJoin corr t (j :: cs) group v = groupJoin corr t cs group v := by
          simp [groupJoin, hjv, hj]
        have hrec := ih group v hndtail hgtail
        have hspec : specGrow corr t ((j :: cs).filter (fun x => !(decide (x ∈ v)))) group
            = ((specGrow corr t (cs.filter (fun x => !(decide (x ∈ v)))) group).1,
              j :: (specGrow corr t (cs.filter (fun x => !(decide (x ∈ v)))) group).2) := by
          rw [hfilter]
          simp [specGrow, hj]
        obtain ⟨d, hd, hdsub⟩ :=
          specGrow_shape corr t (cs.filter (fun x => !(decide (x ∈ v)))) group
        have hdrop : ((specGrow corr t (cs.filter (fun x => !(decide (x ∈ v))))
            group).1).drop group.length = d := by
          rw [hd, List.drop_left]
        constructor
        · rw [hgj, hrec.1, hspec]
        · rw [hspec]
          have hjd : j ∉ d := fun hmem =>
            hjcs (List.mem_of_mem_filter (hdsub j hmem))
          have hjout : j ∉ v ++ ((specGrow corr t
              (cs.filter (fun x => !(decide (x ∈ v)))) group).1).drop group.length := by
            rw [hdrop]
            intro hin
            cases List.mem_append.mp hin with
            | inl h => exact hjv h
            | inr h => exact hjd h
          rw [List.filter_cons_of_pos (by simp [hjout])]
          rw [hrec.2]

theorem groupOuter_spec {n : ℕ} (corr : Fin n → Fin n → Option ℚ) (t : ℚ) :
    ∀ (is_ v : List (Fin n)) (groups : List (List (Fin n))), is_.Nodup →
      groupOuter corr t is_ v groups
        = groups ++ specOuter corr t (is_.filter (fun x => !(decide (x ∈ v)))) := by
  intro is_
  induction is_ with
  | nil =>
    intro v groups _
    simp [groupOuter, specOuter]
  | cons i rest ih =>
    intro v groups hnd
    have hirest : i ∉ rest := (List.nodup_cons.mp hnd).1
    have hndr : rest.Nodup := (List.nodup_cons.mp hnd).2
    by_cases hiv : i ∈ v
    · have hstep : groupOuter corr t (i :: rest) v groups
          = groupOuter corr t rest v groups := by
        simp [groupOuter, hiv]
      rw [hstep, List.filter_cons_of_neg (by simp [hiv]), ih v groups hndr]
    · have hstep : groupOuter corr t (i :: rest) v groups =
        groupOuter corr t rest (groupJoin corr t rest [i] (v ++ [i])).2
          (if 1 < (groupJoin corr t rest [i] (v ++ [i])).1.length
            then groups ++ [(groupJoin corr t rest [i] (v ++ [i])).1] else groups) := by
        simp [groupOuter, hiv]
      have hC := groupJoin_spec corr t rest [i] (v ++ [i]) hndr (fun x hx => by
        have hxi : x ≠ i := fun he => hirest (he ▸ hx)
        simp [hxi])
      have hfvi : rest.filter (fun x => !(decide (x ∈ v ++ [i])))
          = rest.filter (fun x => !(decide (x ∈ v))) := by
        apply List.filter_congr
        intro x hx
        have hxi : x ≠ i := fun he => hirest (he ▸ hx)
        simp [List.mem_append, hxi]
      rw [hfvi] at hC
      have hfilter : (i :: rest).filter (fun x => !(decide (x ∈ v)))
          = i :: rest.filter (fun x => !(decide (x ∈ v))) := by
        simp [List.filter_cons, hiv]
      rw [hstep, hC.1, ih _ _ hndr, hC.2, hfilter]
      have hso : specOuter corr t (i :: rest.filter (fun x => !(decide (x ∈ v)))) =
          (if 1 < (specGrow corr t (rest.filter (fun x => !(decide (x ∈ v)))) [i]).1.length
            then [(specGrow corr t (rest.filter (fun x => !(decide (x ∈ v)))) [i]).1]
            else []) ++
          specOuter corr t
            (specGrow corr t (rest.filter (fun x => !(decide (x ∈ v)))) [i]).2 := by
        rw [specOuter]
      rw [hso]
      by_cases hlen :
          1 < (specGrow corr t (rest.filter (fun x => !(decide (x ∈ v)))) [i]).1.length
      · rw [if_pos hlen, if_pos hlen, List.append_assoc]
      · rw [if_neg hlen, if_neg hlen, List.nil_append]

unseal Rat.add Rat.mul Rat.inv Rat.sub in
/-- C4.  The Correlation Consolidator's grouping equals, for every
correlation matrix and threshold, the deterministic greedy rule exactly as
the spec words it (iterate assets in original column order, skip assigned
assets, start a new group with the current asset, join each later
unassigned asset only if its test against every current group member
passes, never revisit an assigned asset, discard singleton groups); and in
the concrete three-asset scenario (Y = X scaled by a constant, so
corr(X, Y) = 1, third asset at correlation 1/2) with threshold 0.99, X and
Y form the single group and the third asset stays ungrouped. -/
theorem find_groups_eq_spec_rule :
    (∀ (n : ℕ) (corr : Fin n → Fin n → Option ℚ) (t : ℚ),
      _find_correlated_groups corr t = find_correlated_groups_spec corr t) ∧
    _find_correlated_groups corrXYZ (99/100) = [[0, 1]] := by
  constructor
  · intro n corr t
    unfold _find_correlated_groups find_correlated_groups_spec
    rw [groupOuter_spec corr t (List.finRange n) [] [] (List.nodup_finRange n)]
    simp
  · decide

theorem groupJoin_no_join {n : ℕ} (corr : Fin n → Fin n → Option ℚ) (t : ℚ)
    (i : Fin n) : ∀ (cs v : List (Fin n)),
    (∀ j ∈ cs, nanAbsLtStrict (corr i j) t = true) →
    groupJoin corr t cs [i] v = ([i], v) := by
  intro cs
  induction cs with
  | nil => intro v _; rfl
  | cons j cs ih =>
    intro v hall
    have htail : ∀ x ∈ cs, nanAbsLtStrict (corr i x) t = true :=
      fun x hx => hall x (List.mem_cons_of_mem j hx)
    by_cases hjv : j ∈ v
    · simp only [groupJoin, if_pos hjv]
      exact ih v htail
    · have htest : joinTest corr t [i] j = false := by
        simp [joinTest, hall j (List.mem_cons_self j cs)]
      simp only [groupJoin, if_neg hjv, htest, Bool.false_eq_true, if_false]
      exact ih v htail

theorem groupOuter_no_groups {n : ℕ} (corr : Fin n → Fin n → Option ℚ)
    (t : ℚ) : ∀ (is_ v : List (Fin n)) (groups : List (List (Fin n))),
    is_.Nodup →
    (∀ i ∈ is_, ∀ j ∈ is_, i ≠ j → nanAbsLtStrict (corr i j) t = true) →
    groupOuter corr t is_ v groups = groups := by
  intro is_
  induction is_ with
  | nil => intro v groups _ _; rfl
  | cons i rest ih =>
    intro v groups hnd hall
    have hirest : i ∉ rest := (List.nodup_cons.mp hnd).1
    have hndr : rest.Nodup := (List.nodup_cons.mp hnd).2
    have halltail : ∀ a ∈ rest, ∀ b ∈ rest, a ≠ b → nanAbsLtStrict (corr a b) t = true :=
      fun a ha b hb hab =>
        hall a (List.mem_cons_of_mem i ha) b (List.mem_cons_of_mem i hb) hab
    by_cases hiv : i ∈ v
    · simp only [groupOuter, if_pos hiv]
      exact ih v groups hndr halltail
    · have hjoin : groupJoin corr t rest [i] (v ++ [i]) = ([i], v ++ [i]) :=
        groupJoin_no_join corr t i rest (v ++ [i]) (fun j hj =>
          hall i (List.mem_cons_self i rest) j (List.mem_cons_of_mem i hj)
            (fun he => hirest (he ▸ hj)))
      simp only [groupOuter, if_neg hiv, hjoin, List.length_singleton,
        lt_irrefl, if_false]
      exact ih (v ++ [i]) groups hndr halltail

/-- C5 (amended).  If every pairwise correlation entry is a defined number
whose absolute value is **strictly below** the threshold, consolidation is
the identity: zero groups and `consolidatedPrices` equal to the original
price frame.  (The original claim's other sufficient condition,
`threshold = 1.0`, is refuted by `consolidate_threshold_one_counterexample`:
an exactly collinear pair has correlation exactly 1 ≥ 1 and is still
grouped.) -/
theorem consolidate_identity_above_threshold {n : ℕ} (method : RetMethod)
    (logFn : ℚ → ℚ) (prices : Fin n → List ℚ)
    (corr : Fin n → Fin n → Option ℚ) (t : ℚ) (cmethod : CMethod)
    (hbelow : ∀ i j : Fin n, i ≠ j → nanAbsLtStrict (corr i j) t = true) :
    (consolidate_correlated_assets method logFn prices corr t cmethod).groups
        = [] ∧
    (consolidate_correlated_assets method logFn prices corr t cmethod).consolidatedPrices
        = ofCols prices := by
  have hfind : _find_correlated_groups corr t = [] := by
    unfold _find_correlated_groups
    exact groupOuter_no_groups corr t (List.finRange n) [] []
      (List.nodup_finRange n)
      (fun i _ j _ hij => hbelow i j hij)
  constructor
  · show (consolidate_correlated_assets method logFn prices corr t cmethod).groups = []
    simp [consolidate_correlated_assets, hfind]
  · simp [consolidate_correlated_assets, hfind]

unseal Rat.add Rat.mul Rat.inv Rat.sub in
/-- C5 witness: two assets with pairwise correlation 1/2 and threshold
9/10 produce zero groups. -/
theorem consolidate_identity_above_threshold_witness :
    (consolidate_correlated_assets RetMethod.simple (fun q => q)
      (![[1, 2], [2, 3]] : Fin 2 → List ℚ)
      (fun _ _ => some (1/2)) (9/10) CMethod.mean).groups = [] :=
  (consolidate_identity_above_threshold RetMethod.simple (fun q => q)
    (![[1, 2], [2, 3]] : Fin 2 → List ℚ) (fun _ _ => some (1/2)) (9/10)
    CMethod.mean (by decide)).1

unseal Rat.add Rat.mul Rat.inv Rat.sub in
/-- C5 counterexample: with threshold exactly 1.0 and the exactly collinear
pair `pricesXY` (whose return columns coincide, forcing correlation exactly
1), consolidation is **not** the identity: the pair is grouped (1 ≥ 1) and
the consolidated frame differs from the original.  This refutes the
claim's `threshold = 1.0` disjunct. -/
theorem consolidate_threshold_one_counterexample :
    compute_returns RetMethod.simple (fun q => q) pricesXY 0
        = compute_returns RetMethod.simple (fun q => q) pricesXY 1 ∧
    (consolidate_correlated_assets RetMethod.simple (fun q => q) pricesXY
        (fun _ _ => some 1) 1 CMethod.mean).groups = [[0, 1]] ∧
    (consolidate_correlated_assets RetMethod.simple (fun q => q) pricesXY
        (fun _ _ => some 1) 1 CMethod.mean).consolidatedPrices
      ≠ ofCols pricesXY := by
  refine ⟨by decide, by decide, by decide⟩

/-- C10.  A NaN correlation entry never fails the `abs(corr) < threshold`
test (IEEE comparisons with NaN are false), so for **every** threshold an
asset whose correlation with every current group member is NaN is joined
to the group exactly as a perfectly correlated asset would be: with two
assets and `corr(0,1) = NaN`, the grouping is `[[0, 1]]`. -/
theorem nan_corr_joins_group (t : ℚ) (corr : Fin 2 → Fin 2 → Option ℚ)
    (h : corr 0 1 = none) :
    _find_correlated_groups corr t = [[0, 1]] := by
  have hfr : List.finRange 2 = [0, 1] := by decide
  have htest : joinTest corr t [0] 1 = true := by
    simp [joinTest, nanAbsLtStrict, h]
  unfold _find_correlated_groups
  rw [hfr]
  have h0 : ¬ ((0 : Fin 2) ∈ ([] : List (Fin 2))) := by simp
  have h10 : ¬ ((1 : Fin 2) ∈ ([0] : List (Fin 2))) := by decide
  have h11 : (1 : Fin 2) ∈ ([0, 1] : List (Fin 2)) := by decide
  simp only [groupOuter, groupJoin, if_neg h0, if_neg h10, if_pos h11, htest,
    if_true, List.length_cons, List.length_singleton, List.nil_append]
  norm_num

/-- C10 witness: the concrete NaN-off-diagonal correlation matrix with an
arbitrary threshold 5 groups the two assets. -/
theorem nan_corr_joins_group_witness :
    _find_correlated_groups
      (fun i j : Fin 2 => if i = j then some 1 else none) (5 : ℚ) = [[0, 1]] :=
  nan_corr_joins_group 5 (fun i j => if i = j then some 1 else none) rfl
